import Mathlib

/-!
Shallow embedding of the sanitization/validation layer of the Yapp repository
(package `utils`, file with SanitizeUsername … ValidateFileType).

Strings are modelled as Lean `String` (a structure over `List Char`, i.e. a
sequence of Unicode code points).  Go standard-library helpers used by the
code (`strings.TrimSpace`, `strings.Fields`, `strings.Join`, `strings.ToLower`,
`strings.Contains`, `filepath.Ext`, `os.Stat`) are modelled below; external
third-party functions (NFKC normalization, the bluemonday UGC sanitizer, the
go-password-validator entropy check) are abstracted as function parameters.
-/

namespace Yapp

/-- Go `unicode.IsSpace`: the Unicode White_Space property
    (U+0009–U+000D, U+0020, U+0085, U+00A0, U+1680, U+2000–U+200A,
    U+2028, U+2029, U+202F, U+205F, U+3000). -/
def goIsSpace (c : Char) : Bool :=
  (9 ≤ c.toNat && c.toNat ≤ 13) || c.toNat = 32 || c.toNat = 0x85 ||
  c.toNat = 0xA0 || c.toNat = 0x1680 ||
  (0x2000 ≤ c.toNat && c.toNat ≤ 0x200A) ||
  c.toNat = 0x2028 || c.toNat = 0x2029 || c.toNat = 0x202F ||
  c.toNat = 0x205F || c.toNat = 0x3000

/-- Go `strings.TrimSpace` on a list of code points: drop leading and
    trailing White_Space characters. -/
def trimSpaceL (s : List Char) : List Char :=
  ((s.dropWhile goIsSpace).reverse.dropWhile goIsSpace).reverse

/-- Go `strings.TrimSpace`. -/
def trimSpace (s : String) : String := ⟨trimSpaceL s.data⟩

/-- Helper for `fieldsL` (Go `strings.Fields`): walk the string keeping an
    accumulator of the current (reversed) word. -/
def fieldsAux : List Char → List Char → List (List Char)
  | [], acc => if acc = [] then [] else [acc.reverse]
  | c :: rest, acc =>
    if goIsSpace c then
      if acc = [] then fieldsAux rest [] else acc.reverse :: fieldsAux rest []
    else fieldsAux rest (c :: acc)

/-- Go `strings.Fields`: the maximal runs of non-White_Space characters. -/
def fieldsL (s : List Char) : List (List Char) := fieldsAux s []

/-- Helper for `joinWithSpace`: prepend `" " ++ word` for each remaining
    word. -/
def joinTail : List (List Char) → List Char
  | [] => []
  | w :: rest => ' ' :: (w ++ joinTail rest)

/-- Go `strings.Join(fields, " ")`. -/
def joinWithSpace : List (List Char) → List Char
  | [] => []
  | w :: rest => w ++ joinTail rest

/-- `strings.Join(strings.Fields(s), " ")` as used by SanitizeDisplayName. -/
def joinFields (s : String) : String := ⟨joinWithSpace (fieldsL s.data)⟩

/-- ASCII lower-casing of one character (Go `strings.ToLower` restricted to
    ASCII; every character set checked by the validators below is ASCII, and
    non-ASCII characters are disallowed whether or not they are case-mapped). -/
def asciiToLower (c : Char) : Char :=
  if 65 ≤ c.toNat && c.toNat ≤ 90 then Char.ofNat (c.toNat + 32) else c

/-- ASCII upper-casing of one character (used to state spec properties that
    mention `s.upper()`). -/
def asciiToUpper (c : Char) : Char :=
  if 97 ≤ c.toNat && c.toNat ≤ 122 then Char.ofNat (c.toNat - 32) else c

/-- Go `strings.ToLower` (ASCII case mapping, see `asciiToLower`). -/
def goToLower (s : String) : String := ⟨s.data.map asciiToLower⟩

/-- Upper-casing of a whole string, for stating spec properties. -/
def goToUpper (s : String) : String := ⟨s.data.map asciiToUpper⟩

/-- `sub.isPrefixOf s || …` scan: does `sub` occur as a contiguous
    substring of `s`?  Models Go `strings.Contains`. -/
def listContains (sub : List Char) : List Char → Bool
  | [] => sub.isEmpty
  | s@(_ :: t) => sub.isPrefixOf s || listContains sub t

/-- Go `strings.Contains s sub`. -/
def containsSubstring (s sub : String) : Bool := listContains sub.data s.data

/-- Helper for `filepathExt`: scan the reversed path, collecting characters
    until the last `.` (return the dot-suffix) or a `/` / the start
    (return nothing).  Mirrors the backwards byte loop of Go `filepath.Ext`;
    `.` and `/` are ASCII, so the code-point scan coincides with the byte
    scan on UTF-8 input. -/
def extAux : List Char → List Char → List Char
  | [], _ => []
  | c :: rest, acc =>
    if c = '/' then []
    else if c = '.' then '.' :: acc
    else extAux rest (c :: acc)

/-- Go `filepath.Ext` (Unix path separator). -/
def filepathExt (s : String) : String := ⟨extAux s.data.reverse []⟩

/-- The closed error taxonomy of the utils package. -/
inductive UtilsError
  | invalidUsername
  | invalidHallName
  | invalidDisplayName
  | invalidEmail
  | invalidPhoneNumber
  | invalidPassword
  | passwordWhiteSpace
  | invalidBannerColor
  | invalidFileName
  | badFileType
  | fileUnmatch
  deriving DecidableEq, Repr

/-- A character allowed by `usernameRegex = ^[a-z0-9_.-]{3,32}$`:
    `a`–`z`, `0`–`9`, `_`, `.`, `-`. -/
def usernameChar (c : Char) : Bool :=
  (97 ≤ c.toNat && c.toNat ≤ 122) || (48 ≤ c.toNat && c.toNat ≤ 57) ||
  c.toNat = 95 || c.toNat = 46 || c.toNat = 45

/-- `usernameRegex.MatchString`: full match of `^[a-z0-9_.-]{3,32}$`. -/
def usernameRegexMatch (s : String) : Bool :=
  3 ≤ s.length && s.length ≤ 32 && s.data.all usernameChar

/-- `SanitizeUsername` from the source: trim, lower-case, then require a
    full match of `^[a-z0-9_.-]{3,32}$`. -/
def SanitizeUsername (s : String) : Except UtilsError String :=
  let s1 := trimSpace s
  let s2 := goToLower s1
  if usernameRegexMatch s2 = false then .error .invalidUsername
  else .ok s2

/-- `SanitizeDisplayName` from the source: trim, NFKC-normalize, collapse
    interior whitespace runs to single spaces, then require non-empty and a
    code-point count (`utf8.RuneCountInString`) in [3,32].  `nfkc` abstracts
    the external `golang.org/x/text` function `norm.NFKC.String`. -/
def SanitizeDisplayName (nfkc : String → String) (s : String) :
    Except UtilsError String :=
  let s1 := trimSpace s
  let s2 := nfkc s1
  let s3 := joinFields s2
  if s3 = "" then .error .invalidDisplayName
  else if s3.length < 3 || 32 < s3.length then .error .invalidDisplayName
  else .ok s3

/-- `keepPlusDigits` from the source: keep only `+` and the ASCII digits. -/
def keepPlusDigits (s : String) : String :=
  ⟨s.data.filter (fun c => c = '+' || (48 ≤ c.toNat && c.toNat ≤ 57))⟩

/-- `SanitizePhoneE164` from the source: absent or blank passes through as
    absent; otherwise strip to `+`/digits and require length in [7,20].
    (Go `len` is the byte length; the stripped string is all-ASCII, so the
    code-point count used here coincides with it.) -/
def SanitizePhoneE164 (ptr : Option String) :
    Except UtilsError (Option String) :=
  match ptr with
  | none => .ok none
  | some raw =>
    let s := trimSpace raw
    if s = "" then .ok none
    else
      let s2 := keepPlusDigits s
      if s2.length < 7 || 20 < s2.length then .error .invalidPhoneNumber
      else .ok (some s2)

/-- `SanitizePasswordPolicy` from the source: reject boundary whitespace
    without trimming, then delegate to the external entropy validator
    (`go-password-validator`), abstracted as `validate`; on success return
    the raw string unmodified. -/
def SanitizePasswordPolicy (validate : String → Bool) (raw : String) :
    Except UtilsError String :=
  if trimSpace raw ≠ raw then .error .passwordWhiteSpace
  else if validate raw = false then .error .invalidPassword
  else .ok raw

/-- A hexadecimal digit `0-9a-fA-F`. -/
def hexDigit (c : Char) : Bool :=
  (48 ≤ c.toNat && c.toNat ≤ 57) || (97 ≤ c.toNat && c.toNat ≤ 102) ||
  (65 ≤ c.toNat && c.toNat ≤ 70)

/-- `hexRegex.MatchString`: full match of `^#(?:[0-9a-fA-F]{3}){1,2}$`. -/
def hexRegexMatch (s : String) : Bool :=
  match s.data with
  | '#' :: rest => (rest.length = 3 || rest.length = 6) && rest.all hexDigit
  | _ => false

/-- `SanitizeColorFormat` from the source: absent or blank passes through as
    absent; otherwise the trimmed string must match the hex-color regex and
    is returned as-is. -/
def SanitizeColorFormat (colorHex : Option String) :
    Except UtilsError (Option String) :=
  match colorHex with
  | none => .ok none
  | some raw =>
    let s := trimSpace raw
    if s = "" then .ok none
    else if hexRegexMatch s = false then .error .invalidBannerColor
    else .ok (some s)

/-- `SanitizeMessageContent` from the source.  The Go function dereferences
    its `*string` argument with no nil check; absence is modelled as `none`
    and the resulting nil-pointer dereference (runtime panic) as a `none`
    result, while a present argument always produces `some` cleaned string.
    `nfkc` and `ugc` abstract the external library functions
    `norm.NFKC.String` and bluemonday's `UGCPolicy().Sanitize`. -/
def SanitizeMessageContent (nfkc ugc : String → String)
    (content : Option String) : Option String :=
  match content with
  | none => none
  | some c => some (ugc (nfkc (trimSpace c)))

/-- Outcome of the abstracted `os.Stat` syscall: `none` means the call
    succeeded (a filesystem entry exists at the path); `some e` means it
    failed with error kind `e`. -/
inductive StatError
  | notExist
  | other
  deriving DecidableEq, Repr

/-- Go `os.IsNotExist` applied to the (possibly nil) error of `os.Stat`;
    `os.IsNotExist(nil)` is false. -/
def osIsNotExist : Option StatError → Bool
  | some .notExist => true
  | _ => false

/-- `ValidateFileName` from the source, parametrized by the filesystem state
    `fs` (what `os.Stat` returns for each path).  The source accepts only
    when `err == nil && os.IsNotExist(err)`. -/
def ValidateFileName (fs : String → Option StatError) (fileName : String) :
    Except UtilsError String :=
  let s := trimSpace fileName
  let err := fs s
  if err = none && osIsNotExist err then .ok s
  else .error .invalidFileName

/-- `blockedExt` from the source: the deny-list of dangerous extensions. -/
def blockedExt (ext : String) : Bool :=
  [".exe", ".bat", ".cmd", ".msix",
   ".scr", ".pif", ".dll", ".jse", ".vbs",
   ".vbe", ".wsf", ".wsh", ".ps1", ".psm1", ".reg",
   ".jar", ".dmg", ".iso", ".pkg", ".sh",
   ".virus"].contains ext

/-- `ValidateFileType` from the source: extract the lowercased extension of
    the url, reject deny-listed extensions, and when a content type is
    declared reject unless it contains the (dot-prefixed) extension. -/
def ValidateFileType (fileType : Option String) (url : String) :
    Except UtilsError String :=
  let ext := goToLower (filepathExt url)
  if blockedExt ext then .error .badFileType
  else
    match fileType with
    | some ft =>
      if containsSubstring (goToLower ft) ext = false then .error .fileUnmatch
      else .ok ext
    | none => .ok ext

/-! ### Basic lemmas about the string helpers -/

theorem dropWhile_length_le (p : Char → Bool) (l : List Char) :
    (l.dropWhile p).length ≤ l.length :=
  (List.dropWhile_suffix p).length_le

theorem dropWhile_eq_self_of_all (p : Char → Bool) (l : List Char)
    (h : l.all (fun c => !p c) = true) : l.dropWhile p = l := by
  cases l with
  | nil => rfl
  | cons c t =>
    rw [List.dropWhile_cons, if_neg]
    simp only [List.all_cons, Bool.and_eq_true, Bool.not_eq_true'] at h
    simp [h.1]

theorem listContains_nil (l : List Char) : listContains [] l = true := by
  cases l <;> rfl

/-- Go `strings.Contains(s, "")` is always true. -/
theorem containsSubstring_empty (s : String) : containsSubstring s "" = true :=
  listContains_nil s.data

theorem trimSpaceL_head_space_ne {l : List Char} {c : Char}
    (h : l.head? = some c) (hc : goIsSpace c = true) : trimSpaceL l ≠ l := by
  cases l with
  | nil => simp at h
  | cons d t =>
    have hd : d = c := by simpa using h
    subst hd
    intro heq
    have h1 : (trimSpaceL (d :: t)).length ≤ t.length := by
      unfold trimSpaceL
      rw [List.dropWhile_cons, if_pos hc]
      calc ((t.dropWhile goIsSpace).reverse.dropWhile goIsSpace).reverse.length
          = ((t.dropWhile goIsSpace).reverse.dropWhile goIsSpace).length :=
            List.length_reverse _
        _ ≤ (t.dropWhile goIsSpace).reverse.length := dropWhile_length_le _ _
        _ = (t.dropWhile goIsSpace).length := List.length_reverse _
        _ ≤ t.length := dropWhile_length_le _ _
    rw [heq] at h1
    simp only [List.length_cons] at h1
    omega

theorem trimSpaceL_getLast_space_ne {l : List Char} {c : Char}
    (h : l.getLast? = some c) (hc : goIsSpace c = true) : trimSpaceL l ≠ l := by
  intro heq
  have hlne : l ≠ [] := by
    intro h0
    subst h0
    simp at h
  by_cases hdnil : l.dropWhile goIsSpace = []
  · have hnil : trimSpaceL l = [] := by
      unfold trimSpaceL
      rw [hdnil]
      rfl
    rw [hnil] at heq
    exact hlne heq.symm
  · obtain ⟨pre, hpre⟩ := List.dropWhile_suffix (l := l) goIsSpace
    cases hdr : (l.dropWhile goIsSpace).reverse with
    | nil => exact hdnil (by simpa using hdr)
    | cons x r =>
      have hxl : (l.dropWhile goIsSpace).getLast? = some x := by
        rw [← List.head?_reverse, hdr]
        rfl
      have hx : x = c := by
        rw [← hpre, List.getLast?_append, hxl] at h
        simpa using h
      subst hx
      have h1 : (trimSpaceL l).length ≤ r.length := by
        unfold trimSpaceL
        rw [hdr, List.dropWhile_cons, if_pos hc]
        calc (r.dropWhile goIsSpace).reverse.length
            = (r.dropWhile goIsSpace).length := List.length_reverse _
          _ ≤ r.length := dropWhile_length_le _ _
      have h2 : (l.dropWhile goIsSpace).length = r.length + 1 := by
        rw [← List.length_reverse (l.dropWhile goIsSpace), hdr]
        simp
      have h3 : (l.dropWhile goIsSpace).length ≤ l.length :=
        dropWhile_length_le _ _
      rw [heq] at h1
      omega

/-! ### C1: ValidateFileName -/

/-- C1.  The claim says `ValidateFileName` accepts the trimmed name whenever
no filesystem entry exists at the path.  In the source the acceptance guard
is `err == nil && os.IsNotExist(err)`, which is unsatisfiable
(`os.IsNotExist(nil)` is false), so the function rejects every input with
InvalidFileName regardless of the filesystem state — including when `os.Stat`
reports that the path does not exist. -/
theorem validateFileName_always_fails (fs : String → Option StatError)
    (fileName : String) :
    ValidateFileName fs fileName = .error .invalidFileName := by
  unfold ValidateFileName
  cases h : fs (trimSpace fileName) with
  | none => simp [h, osIsNotExist]
  | some e => simp [h]

/-! ### C2: ValidateFileType on a matching declared content type -/

/-- C2.  The claim (and the spec's example) says
`ValidateFileType(ptr("image/jpeg"), "http://x/file.jpeg")` succeeds with
`".jpeg"`.  In the source the extracted extension keeps its leading dot and
is checked with `strings.Contains("image/jpeg", ".jpeg")`, which is false,
so the call actually fails with FileUnmatch. -/
theorem validateFileType_jpeg_unmatch :
    ValidateFileType (some "image/jpeg") "http://x/file.jpeg" =
      .error .fileUnmatch := rfl

/-! ### C8: SanitizeMessageContent and nil input -/

/-- C8.  `SanitizeMessageContent` dereferences its pointer argument with no
nil check: an absent input yields the panic marker (`none`), while a present
input always yields a cleaned string, for every choice of the external
normalizer and sanitizer. -/
theorem sanitizeMessageContent_nil_unsafe :
    (∀ nfkc ugc : String → String, SanitizeMessageContent nfkc ugc none = none) ∧
    (∀ (nfkc ugc : String → String) (s : String),
      ∃ r, SanitizeMessageContent nfkc ugc (some s) = some r) :=
  ⟨fun _ _ => rfl, fun nfkc ugc s => ⟨ugc (nfkc (trimSpace s)), rfl⟩⟩

/-! ### C9: ValidateFileType on a url with no extension -/

/-- C9.  When the url has no file extension, `filepath.Ext` yields `""`:
the empty extension is not deny-listed and every declared content type
contains the empty string, so `ValidateFileType` succeeds and returns `""`,
whatever the declared type. -/
theorem validateFileType_no_ext (fileType : Option String) (url : String)
    (h : filepathExt url = "") :
    ValidateFileType fileType url = .ok "" := by
  have e : goToLower "" = "" := rfl
  have hb : blockedExt "" = false := rfl
  cases fileType with
  | none => simp [ValidateFileType, h, e, hb]
  | some ft =>
    have hc : containsSubstring (goToLower ft) "" = true :=
      containsSubstring_empty (goToLower ft)
    simp [ValidateFileType, h, e, hb, hc]

/-- Witness for C9 at a concrete extension-free url and declared type. -/
theorem validateFileType_no_ext_witness :
    ValidateFileType (some "image/png") "http://x/file" = .ok "" :=
  validateFileType_no_ext (some "image/png") "http://x/file" rfl

/-! ### C10: SanitizeColorFormat preserves case -/

/-- C10.  On success `SanitizeColorFormat` returns exactly the trimmed
input — no case folding — and in particular `"#ABC"` comes back as
`"#ABC"`. -/
theorem sanitizeColorFormat_no_case_fold :
    (∀ raw out : String,
      SanitizeColorFormat (some raw) = .ok (some out) → out = trimSpace raw) ∧
    SanitizeColorFormat (some "#ABC") = .ok (some "#ABC") := by
  constructor
  · intro raw out h
    by_cases h1 : trimSpace raw = ""
    · simp [SanitizeColorFormat, h1] at h
    · by_cases h2 : hexRegexMatch (trimSpace raw) = false
      · simp [SanitizeColorFormat, h1, h2] at h
      · rw [Bool.not_eq_false] at h2
        simp [SanitizeColorFormat, h1, h2] at h
        exact h.symm
  · rfl

/-- Witness for C10: the uppercase hex color is returned unchanged. -/
theorem sanitizeColorFormat_no_case_fold_witness : ("#ABC" : String) = trimSpace "#ABC" :=
  sanitizeColorFormat_no_case_fold.1 "#ABC" "#ABC" rfl

/-! ### C3: SanitizePasswordPolicy and boundary whitespace -/

/-- C3.  A password with a leading or trailing whitespace character is
rejected with PasswordWhitespace (never trimmed), and every accepted
password is returned byte-for-byte identical to the input, whatever the
external entropy validator decides. -/
theorem sanitizePasswordPolicy_boundary_ws (validate : String → Bool)
    (raw : String) :
    ((∃ c, raw.data.head? = some c ∧ goIsSpace c = true) ∨
     (∃ c, raw.data.getLast? = some c ∧ goIsSpace c = true) →
      SanitizePasswordPolicy validate raw = .error .passwordWhiteSpace) ∧
    (∀ out, SanitizePasswordPolicy validate raw = .ok out → out = raw) := by
  constructor
  · intro h
    have hne : trimSpace raw ≠ raw := by
      intro he
      have he' : trimSpaceL raw.data = raw.data := congrArg String.data he
      rcases h with ⟨c, hc1, hc2⟩ | ⟨c, hc1, hc2⟩
      · exact trimSpaceL_head_space_ne hc1 hc2 he'
      · exact trimSpaceL_getLast_space_ne hc1 hc2 he'
    unfold SanitizePasswordPolicy
    rw [if_pos hne]
  · intro out h
    unfold SanitizePasswordPolicy at h
    by_cases h1 : trimSpace raw ≠ raw
    · rw [if_pos h1] at h
      simp at h
    · rw [if_neg h1] at h
      by_cases h2 : validate raw = false
      · rw [if_pos h2] at h
        simp at h
      · rw [if_neg h2] at h
        simpa using h.symm

/-- Witness for C3: a leading space is rejected, an accepted password is
returned unchanged. -/
theorem sanitizePasswordPolicy_boundary_ws_witness :
    SanitizePasswordPolicy (fun _ => true) " pw" = .error .passwordWhiteSpace ∧
    ("Str0ng-Pass" : String) = "Str0ng-Pass" :=
  ⟨(sanitizePasswordPolicy_boundary_ws (fun _ => true) " pw").1
      (Or.inl ⟨' ', rfl, by decide⟩),
   (sanitizePasswordPolicy_boundary_ws (fun _ => true) "Str0ng-Pass").2
      "Str0ng-Pass" rfl⟩

/-! ### C7: SanitizePhoneE164 -/

/-- C7.  `SanitizePhoneE164` passes absent input (or input that trims to
empty) through as absent; otherwise it strips everything but `+` and the
decimal digits, errors with InvalidPhoneNumber exactly when the stripped
length is outside [7,20], and returns the stripped string on success. -/
theorem sanitizePhoneE164_spec :
    SanitizePhoneE164 none = .ok none ∧
    (∀ raw : String, trimSpace raw = "" →
      SanitizePhoneE164 (some raw) = .ok none) ∧
    (∀ raw : String, trimSpace raw ≠ "" →
      (((keepPlusDigits (trimSpace raw)).length < 7 ∨
        20 < (keepPlusDigits (trimSpace raw)).length) →
        SanitizePhoneE164 (some raw) = .error .invalidPhoneNumber) ∧
      (7 ≤ (keepPlusDigits (trimSpace raw)).length →
        (keepPlusDigits (trimSpace raw)).length ≤ 20 →
        SanitizePhoneE164 (some raw) =
          .ok (some (keepPlusDigits (trimSpace raw))))) := by
  refine ⟨rfl, ?_, ?_⟩
  · intro raw h
    simp [SanitizePhoneE164, h]
  · intro raw h
    constructor
    · intro hlen
      have hcond : (decide ((keepPlusDigits (trimSpace raw)).length < 7) ||
          decide (20 < (keepPlusDigits (trimSpace raw)).length)) = true := by
        rcases hlen with hl | hl <;> simp [hl]
      simp [SanitizePhoneE164, h, hcond]
    · intro h7 h20
      have hcond : (decide ((keepPlusDigits (trimSpace raw)).length < 7) ||
          decide (20 < (keepPlusDigits (trimSpace raw)).length)) = false := by
        simp only [Bool.or_eq_false_iff, decide_eq_false_iff_not, not_lt]
        exact ⟨h7, h20⟩
      simp [SanitizePhoneE164, h, hcond]

/-- Witness for C7: blank input passes through as absent, a formatted number
is stripped to `+`/digits, and a too-short number is rejected. -/
theorem sanitizePhoneE164_spec_witness :
    SanitizePhoneE164 (some "  ") = .ok none ∧
    SanitizePhoneE164 (some " +1 (555) 123-4567 ") = .ok (some "+15551234567") ∧
    SanitizePhoneE164 (some "123") = .error .invalidPhoneNumber :=
  ⟨sanitizePhoneE164_spec.2.1 "  " rfl,
   (sanitizePhoneE164_spec.2.2 " +1 (555) 123-4567 " (by decide)).2
      (by decide) (by decide),
   (sanitizePhoneE164_spec.2.2 "123" (by decide)).1 (Or.inl (by decide))⟩

/-! ### Lemmas about `strings.Fields` / `strings.Join` -/

/-- Every field produced by `fieldsAux` is non-empty and whitespace-free,
provided the accumulator is whitespace-free. -/
theorem fieldsAux_good :
    ∀ (s acc : List Char), acc.all (fun c => !goIsSpace c) = true →
    ∀ f ∈ fieldsAux s acc, f ≠ [] ∧ f.all (fun c => !goIsSpace c) = true := by
  intro s
  induction s with
  | nil =>
    intro acc hacc f hf
    unfold fieldsAux at hf
    by_cases h : acc = []
    · rw [if_pos h] at hf
      simp at hf
    · rw [if_neg h] at hf
      simp only [List.mem_singleton] at hf
      subst hf
      refine ⟨by simpa using h, ?_⟩
      simp only [List.all_eq_true, List.mem_reverse] at hacc ⊢
      exact hacc
  | cons c rest ih =>
    intro acc hacc f hf
    unfold fieldsAux at hf
    by_cases hsp : goIsSpace c = true
    · rw [if_pos hsp] at hf
      by_cases h : acc = []
      · rw [if_pos h] at hf
        exact ih [] rfl f hf
      · rw [if_neg h] at hf
        rcases List.mem_cons.mp hf with hf | hf
        · subst hf
          refine ⟨by simpa using h, ?_⟩
          simp only [List.all_eq_true, List.mem_reverse] at hacc ⊢
          exact hacc
        · exact ih [] rfl f hf
    · rw [if_neg hsp] at hf
      refine ih (c :: acc) ?_ f hf
      simp only [List.all_cons, Bool.and_eq_true]
      exact ⟨by simp [hsp], hacc⟩

/-- Scanning a whitespace-free word pushes it (reversed) onto the
accumulator. -/
theorem fieldsAux_append_word :
    ∀ (w t acc : List Char), w.all (fun c => !goIsSpace c) = true →
    fieldsAux (w ++ t) acc = fieldsAux t (w.reverse ++ acc) := by
  intro w
  induction w with
  | nil => simp
  | cons c w' ih =>
    intro t acc hall
    simp only [List.all_cons, Bool.and_eq_true, Bool.not_eq_true'] at hall
    have h1 : fieldsAux (c :: (w' ++ t)) acc = fieldsAux (w' ++ t) (c :: acc) := by
      show (if goIsSpace c = true then
              if acc = [] then fieldsAux (w' ++ t) []
              else acc.reverse :: fieldsAux (w' ++ t) []
            else fieldsAux (w' ++ t) (c :: acc)) = fieldsAux (w' ++ t) (c :: acc)
      rw [if_neg (by simp [hall.1])]
    rw [List.cons_append, h1, ih t (c :: acc) (by simpa using hall.2)]
    congr 1
    simp

/-- `strings.Fields` recovers the word list from `strings.Join(words, " ")`
when each word is non-empty and whitespace-free. -/
theorem fieldsL_joinWithSpace :
    ∀ L : List (List Char),
    (∀ f ∈ L, f ≠ [] ∧ f.all (fun c => !goIsSpace c) = true) →
    fieldsL (joinWithSpace L) = L := by
  intro L
  induction L with
  | nil => intro _; rfl
  | cons w rest ih =>
    intro hL
    obtain ⟨hw, hwall⟩ := hL w (List.mem_cons_self w rest)
    show fieldsAux (w ++ joinTail rest) [] = w :: rest
    rw [fieldsAux_append_word w _ [] hwall, List.append_nil]
    cases rest with
    | nil =>
      show fieldsAux [] w.reverse = [w]
      unfold fieldsAux
      rw [if_neg (by simpa using hw)]
      simp
    | cons v rest' =>
      show fieldsAux (' ' :: (v ++ joinTail rest')) w.reverse = w :: v :: rest'
      unfold fieldsAux
      rw [if_pos (by decide), if_neg (by simpa using hw)]
      have hrest : fieldsAux (v ++ joinTail rest') [] = v :: rest' :=
        ih fun f hf => hL f (List.mem_cons_of_mem w hf)
      rw [hrest]
      simp

/-- The join of a non-empty list of non-empty whitespace-free words ends in
a non-whitespace character (stated via its reverse). -/
theorem joinWithSpace_reverse_head :
    ∀ L : List (List Char), L ≠ [] →
    (∀ f ∈ L, f ≠ [] ∧ f.all (fun c => !goIsSpace c) = true) →
    ∃ c cs, (joinWithSpace L).reverse = c :: cs ∧ goIsSpace c = false := by
  intro L
  induction L with
  | nil => intro h; exact absurd rfl h
  | cons w rest ih =>
    intro _ hL
    obtain ⟨hw, hwall⟩ := hL w (List.mem_cons_self w rest)
    cases rest with
    | nil =>
      cases hwr : w.reverse with
      | nil => exact absurd (by simpa using hwr) hw
      | cons c cs =>
        refine ⟨c, cs, ?_, ?_⟩
        · show (w ++ joinTail []).reverse = c :: cs
          rw [show joinTail ([] : List (List Char)) = [] from rfl,
            List.append_nil]
          exact hwr
        have hcmem : c ∈ w := by
          rw [← List.mem_reverse, hwr]
          exact List.mem_cons_self c cs
        simp only [List.all_eq_true, Bool.not_eq_true'] at hwall
        exact hwall c hcmem
    | cons v rest' =>
      obtain ⟨c, cs, hrev, hc⟩ :=
        ih (by simp) fun f hf => hL f (List.mem_cons_of_mem w hf)
      refine ⟨c, cs ++ ' ' :: w.reverse, ?_, hc⟩
      show (w ++ joinTail (v :: rest')).reverse = _
      have : joinTail (v :: rest') = ' ' :: joinWithSpace (v :: rest') := rfl
      rw [this, List.reverse_append, List.reverse_cons, hrev]
      simp

/-- `strings.TrimSpace` leaves `strings.Join(strings.Fields ..)` output
unchanged. -/
theorem trimSpaceL_joinWithSpace
    (L : List (List Char))
    (hL : ∀ f ∈ L, f ≠ [] ∧ f.all (fun c => !goIsSpace c) = true) :
    trimSpaceL (joinWithSpace L) = joinWithSpace L := by
  cases L with
  | nil => rfl
  | cons w rest =>
    obtain ⟨hw, hwall⟩ := hL w (List.mem_cons_self w rest)
    have hdrop : (joinWithSpace (w :: rest)).dropWhile goIsSpace =
        joinWithSpace (w :: rest) := by
      cases hwc : w with
      | nil => exact absurd hwc hw
      | cons c w' =>
        rw [hwc] at hwall
        simp only [List.all_cons, Bool.and_eq_true, Bool.not_eq_true'] at hwall
        show ((c :: w') ++ joinTail rest).dropWhile goIsSpace = _
        rw [List.cons_append, List.dropWhile_cons, if_neg (by simp [hwall.1])]
        rfl
    obtain ⟨c, cs, hrev, hc⟩ :=
      joinWithSpace_reverse_head (w :: rest) (by simp) hL
    unfold trimSpaceL
    rw [hdrop, hrev, List.dropWhile_cons, if_neg (by simp [hc]), ← hrev]
    exact List.reverse_reverse _

/-! ### C4: SanitizeDisplayName is idempotent -/

/-- C4.  `SanitizeDisplayName` is idempotent: if it succeeds on `s` with
output `out`, it succeeds on `out` with output `out`.  The abstract `nfkc`
is assumed to fix strings of the pipeline's output shape
(`joinFields (nfkc t)`), which holds of real NFKC normalization: it is
idempotent, normalization is closed under taking subwords, and joining
NFKC-normal words with U+0020 (which composes with nothing) stays normal. -/
theorem sanitizeDisplayName_idempotent
    (nfkc : String → String)
    (hn : ∀ t : String, nfkc (joinFields (nfkc t)) = joinFields (nfkc t))
    (s out : String) (h : SanitizeDisplayName nfkc s = .ok out) :
    SanitizeDisplayName nfkc out = .ok out := by
  simp only [SanitizeDisplayName] at h
  by_cases h1 : joinFields (nfkc (trimSpace s)) = ""
  · rw [if_pos h1] at h
    simp at h
  rw [if_neg h1] at h
  by_cases h2 : (decide ((joinFields (nfkc (trimSpace s))).length < 3) ||
      decide (32 < (joinFields (nfkc (trimSpace s))).length)) = true
  · rw [if_pos h2] at h
    simp at h
  rw [if_neg h2] at h
  have hout : out = joinFields (nfkc (trimSpace s)) := by
    simpa using h.symm
  subst hout
  have hgood : ∀ f ∈ fieldsL (nfkc (trimSpace s)).data,
      f ≠ [] ∧ f.all (fun c => !goIsSpace c) = true :=
    fieldsAux_good (nfkc (trimSpace s)).data [] rfl
  have e1 : trimSpace (joinFields (nfkc (trimSpace s))) =
      joinFields (nfkc (trimSpace s)) :=
    congrArg String.mk
      (trimSpaceL_joinWithSpace (fieldsL (nfkc (trimSpace s)).data) hgood)
  have e2 : nfkc (joinFields (nfkc (trimSpace s))) =
      joinFields (nfkc (trimSpace s)) := hn (trimSpace s)
  have e3 : joinFields (joinFields (nfkc (trimSpace s))) =
      joinFields (nfkc (trimSpace s)) :=
    congrArg String.mk (congrArg joinWithSpace
      (fieldsL_joinWithSpace (fieldsL (nfkc (trimSpace s)).data) hgood))
  simp only [SanitizeDisplayName]
  rw [e1, e2, e3, if_neg h1, if_neg h2]

/-- Witness for C4 at the identity normalizer (real NFKC fixes `"abc"`). -/
theorem sanitizeDisplayName_idempotent_witness :
    SanitizeDisplayName (fun t => t) "abc" = .ok "abc" :=
  sanitizeDisplayName_idempotent (fun t => t) (fun _ => rfl) "abc" "abc" rfl

/-! ### C6: SanitizeDisplayName length is counted in code points -/

/-- C6.  After trimming, normalization and whitespace collapsing,
`SanitizeDisplayName` succeeds exactly when the result is non-empty with a
code-point count in [3,32]; in particular a 32-code-point string of 2-byte
characters (32 times `я`, 64 UTF-8 bytes, NFKC-invariant) succeeds. -/
theorem sanitizeDisplayName_length_codepoints :
    (∀ (nfkc : String → String) (s : String),
      (∃ out, SanitizeDisplayName nfkc s = .ok out) ↔
        (joinFields (nfkc (trimSpace s)) ≠ "" ∧
         3 ≤ (joinFields (nfkc (trimSpace s))).length ∧
         (joinFields (nfkc (trimSpace s))).length ≤ 32)) ∧
    SanitizeDisplayName (fun t => t) "яяяяяяяяяяяяяяяяяяяяяяяяяяяяяяяя" =
      .ok "яяяяяяяяяяяяяяяяяяяяяяяяяяяяяяяя" := by
  constructor
  · intro nfkc s
    simp only [SanitizeDisplayName]
    constructor
    · rintro ⟨out, hout⟩
      by_cases h1 : joinFields (nfkc (trimSpace s)) = ""
      · rw [if_pos h1] at hout
        simp at hout
      rw [if_neg h1] at hout
      by_cases h2 : (decide ((joinFields (nfkc (trimSpace s))).length < 3) ||
          decide (32 < (joinFields (nfkc (trimSpace s))).length)) = true
      · rw [if_pos h2] at hout
        simp at hout
      refine ⟨h1, ?_, ?_⟩ <;>
        · simp only [Bool.or_eq_true, decide_eq_true_eq, not_or, not_lt] at h2
          omega
    · rintro ⟨h1, h2, h3⟩
      refine ⟨joinFields (nfkc (trimSpace s)), ?_⟩
      have hcond : (decide ((joinFields (nfkc (trimSpace s))).length < 3) ||
          decide (32 < (joinFields (nfkc (trimSpace s))).length)) = false := by
        simp only [Bool.or_eq_false_iff, decide_eq_false_iff_not, not_lt]
        exact ⟨h2, h3⟩
      rw [if_neg h1, hcond]
      simp
  · rfl

/-! ### C5: SanitizeUsername -/

theorem toNat_ofNat_of_lt {n : Nat} (h : n < 55296) :
    (Char.ofNat n).toNat = n := by
  have hv : n.isValidChar := Or.inl h
  simp [Char.ofNat, hv, Char.ofNatAux, Char.toNat, UInt32.toNat]

theorem goIsSpace_iff (d : Char) : goIsSpace d = true ↔
    (9 ≤ d.toNat ∧ d.toNat ≤ 13) ∨ d.toNat = 32 ∨ d.toNat = 0x85 ∨
    d.toNat = 0xA0 ∨ d.toNat = 0x1680 ∨
    (0x2000 ≤ d.toNat ∧ d.toNat ≤ 0x200A) ∨ d.toNat = 0x2028 ∨
    d.toNat = 0x2029 ∨ d.toNat = 0x202F ∨ d.toNat = 0x205F ∨
    d.toNat = 0x3000 := by
  simp only [goIsSpace, Bool.or_eq_true, Bool.and_eq_true, decide_eq_true_eq]
  omega

theorem goIsSpace_eq_false_of_range {d : Char} (h1 : 33 ≤ d.toNat)
    (h2 : d.toNat ≤ 132) : goIsSpace d = false := by
  cases hb : goIsSpace d with
  | false => rfl
  | true =>
    rw [goIsSpace_iff] at hb
    exact absurd hb (by omega)

theorem goIsSpace_asciiToUpper {c : Char} (h : usernameChar c = true) :
    goIsSpace (asciiToUpper c) = false := by
  simp only [usernameChar, Bool.or_eq_true, Bool.and_eq_true,
    decide_eq_true_eq] at h
  unfold asciiToUpper
  by_cases hc : (decide (97 ≤ c.toNat) && decide (c.toNat ≤ 122)) = true
  · rw [if_pos hc]
    simp only [Bool.and_eq_true, decide_eq_true_eq] at hc
    have hd : (Char.ofNat (c.toNat - 32)).toNat = c.toNat - 32 :=
      toNat_ofNat_of_lt (by omega)
    exact goIsSpace_eq_false_of_range (by rw [hd]; omega) (by rw [hd]; omega)
  · rw [if_neg hc]
    simp only [Bool.and_eq_true, decide_eq_true_eq] at hc
    exact goIsSpace_eq_false_of_range (by omega) (by omega)

theorem asciiToLower_asciiToUpper {c : Char} (h : usernameChar c = true) :
    asciiToLower (asciiToUpper c) = c := by
  simp only [usernameChar, Bool.or_eq_true, Bool.and_eq_true,
    decide_eq_true_eq] at h
  unfold asciiToUpper
  by_cases hc : (decide (97 ≤ c.toNat) && decide (c.toNat ≤ 122)) = true
  · rw [if_pos hc]
    simp only [Bool.and_eq_true, decide_eq_true_eq] at hc
    have hd : (Char.ofNat (c.toNat - 32)).toNat = c.toNat - 32 :=
      toNat_ofNat_of_lt (by omega)
    unfold asciiToLower
    rw [if_pos (by simp only [Bool.and_eq_true, decide_eq_true_eq, hd]; omega)]
    rw [hd, show c.toNat - 32 + 32 = c.toNat from by omega, Char.ofNat_toNat]
  · rw [if_neg hc]
    simp only [Bool.and_eq_true, decide_eq_true_eq] at hc
    unfold asciiToLower
    rw [if_neg (by simp only [Bool.and_eq_true, decide_eq_true_eq]; omega)]

/-- Trimming `" " ++ u ++ " "` recovers `u` when `u` is non-empty and
whitespace-free. -/
theorem trimSpaceL_wrap (u : List Char) (hne : u ≠ [])
    (hall : u.all (fun c => !goIsSpace c) = true) :
    trimSpaceL (' ' :: (u ++ [' '])) = u := by
  unfold trimSpaceL
  rw [List.dropWhile_cons, if_pos (by decide)]
  cases u with
  | nil => exact absurd rfl hne
  | cons c u' =>
    simp only [List.all_cons, Bool.and_eq_true, Bool.not_eq_true'] at hall
    rw [List.cons_append, List.dropWhile_cons, if_neg (by simp [hall.1])]
    have hallrev : ((u'.reverse ++ [c]).all fun x => !goIsSpace x) = true := by
      simp only [List.all_append, List.all_reverse, Bool.and_eq_true]
      exact ⟨by simpa using hall.2, by simp [hall.1]⟩
    have hds : (u'.reverse ++ [c]).dropWhile goIsSpace = u'.reverse ++ [c] :=
      dropWhile_eq_self_of_all _ _ hallrev
    have e : (c :: (u' ++ [' '])).reverse = ' ' :: (u'.reverse ++ [c]) := by
      simp
    rw [e, List.dropWhile_cons, if_pos (by decide), hds]
    simp

/-- C5.  Padding a valid username with spaces and upper-casing it is
undone by `SanitizeUsername`, which returns the lower-cased original; and
any input whose trimmed lower-cased form is shorter than 3, longer than 32,
or contains a character outside `[a-z0-9_.-]` is rejected with
InvalidUsername. -/
theorem sanitizeUsername_spec :
    (∀ s : String, 3 ≤ s.length → s.length ≤ 32 →
      s.data.all usernameChar = true →
      SanitizeUsername (" " ++ goToUpper s ++ " ") = .ok s) ∧
    (∀ s : String,
      ((goToLower (trimSpace s)).length < 3 ∨
       32 < (goToLower (trimSpace s)).length ∨
       (∃ c ∈ (goToLower (trimSpace s)).data, usernameChar c = false)) →
      SanitizeUsername s = .error .invalidUsername) := by
  constructor
  · intro s h3 h32 hall
    have halls : ∀ c ∈ s.data, usernameChar c = true := by
      simpa only [List.all_eq_true] using hall
    have hu : (goToUpper s).data.all (fun c => !goIsSpace c) = true := by
      simp only [goToUpper, List.all_map, List.all_eq_true, Function.comp]
      intro c hc
      simp [goIsSpace_asciiToUpper (halls c hc)]
    have hne : (goToUpper s).data ≠ [] := by
      apply List.ne_nil_of_length_pos
      show 0 < (s.data.map asciiToUpper).length
      rw [List.length_map]
      have : s.length = s.data.length := rfl
      omega
    have htrimL : trimSpaceL (' ' :: ((goToUpper s).data ++ [' '])) =
        (goToUpper s).data := trimSpaceL_wrap _ hne hu
    have hdata : (" " ++ goToUpper s ++ " ").data =
        ' ' :: ((goToUpper s).data ++ [' ']) := by
      rw [String.data_append, String.data_append]
      simp
    have htrim : trimSpace (" " ++ goToUpper s ++ " ") = goToUpper s := by
      show String.mk (trimSpaceL (" " ++ goToUpper s ++ " ").data) = goToUpper s
      rw [hdata, htrimL]
    have hlower : goToLower (goToUpper s) = s := by
      show String.mk ((s.data.map asciiToUpper).map asciiToLower) = s
      rw [List.map_map,
        List.map_congr_left
          (fun a ha => by
            show (asciiToLower ∘ asciiToUpper) a = id a
            exact asciiToLower_asciiToUpper (halls a ha)),
        List.map_id]
    have hmatch : usernameRegexMatch s = true := by
      simp only [usernameRegexMatch, Bool.and_eq_true, decide_eq_true_eq]
      exact ⟨⟨h3, h32⟩, hall⟩
    simp only [SanitizeUsername]
    rw [htrim, hlower]
    simp [hmatch]
  · intro s hbad
    have hmatch : usernameRegexMatch (goToLower (trimSpace s)) = false := by
      cases hm : usernameRegexMatch (goToLower (trimSpace s)) with
      | false => rfl
      | true =>
        exfalso
        simp only [usernameRegexMatch, Bool.and_eq_true, decide_eq_true_eq,
          List.all_eq_true] at hm
        obtain ⟨⟨hm1, hm2⟩, hm3⟩ := hm
        rcases hbad with hb | hb | ⟨c, hc, hcf⟩
        · omega
        · omega
        · exact absurd (hm3 c hc) (by simp [hcf])
    simp only [SanitizeUsername]
    simp [hmatch]

/-- Witness for C5: `" ABC "` normalizes to `"abc"`, and `"ab"` (too short
after trimming and lower-casing) is rejected. -/
theorem sanitizeUsername_spec_witness :
    SanitizeUsername (" " ++ goToUpper "abc" ++ " ") = .ok "abc" ∧
    SanitizeUsername "ab" = .error .invalidUsername :=
  ⟨sanitizeUsername_spec.1 "abc" (by decide) (by decide) (by decide),
   sanitizeUsername_spec.2 "ab" (Or.inl (by decide))⟩

end Yapp
